import Mathlib

/-!
Shallow embedding of the call-number cleaning and ranking program
(`ard_data_with_index.py`, with `arsdatacleaning.py` a strict subset).
Python strings are modelled as `List Char`; Python regex character
classes (`\s`, `\d`, `[A-Z]`) are taken in their ASCII meaning, which
is what the program's catalog data exercises.  The `float` class
number is modelled as `ℚ` (decimal literals of the data compare the
same way as IEEE floats do), with `float("inf")` as `⊤ : WithTop ℚ`;
integer-or-infinity slots are `WithTop ℕ`.
-/

/-- ASCII whitespace: the ASCII fragment of Python's `\s` and `str.strip`. -/
def isWS (c : Char) : Bool :=
  c == ' ' || c == '\t' || c == '\n' || c == '\r' || c == '\x0b' || c == '\x0c'

/-- Python `str.strip()`. -/
def stripList (l : List Char) : List Char :=
  ((l.dropWhile isWS).reverse.dropWhile isWS).reverse

/-- Python `re.sub(r"\s+", " ", s)`: collapse each maximal whitespace run
to a single space. -/
def collapse : List Char → List Char
  | [] => []
  | [c] => if isWS c then [' '] else [c]
  | a :: b :: rest =>
    if isWS a && isWS b then collapse (b :: rest)
    else (if isWS a then ' ' else a) :: collapse (b :: rest)

/-- Exactly four ASCII digits: the lookahead `\d{4}$` seen from the
character right after a space.  (The strings this is applied to have
been stripped, so the `$`-before-final-newline case of Python's `$`
cannot arise.) -/
def fourDigits (l : List Char) : Bool :=
  l.length == 4 && l.all Char.isDigit

/-- Python `re.sub(r" (?!\d{4}$)", "", s)`: delete every space character
whose suffix in the string is not exactly four digits reaching the end.
`re.sub` tests each (length-1) match against the original string, so the
deletions are independent and this is a filter over suffixes. -/
def keepSpaces : List Char → List Char
  | [] => []
  | c :: rest =>
    if c == ' ' && !fourDigits rest then keepSpaces rest
    else c :: keepSpaces rest

/-- Source `clean_call_number_keep_space_before_year`:
empty guard, strip, collapse whitespace runs, then remove the spaces
not standing before a final 4-digit group. -/
def clean_call_number_keep_space_before_year (s : List Char) : List Char :=
  if s = [] then [] else keepSpaces (collapse (stripList s))

/-- Short alias for the source's cleaning function. -/
abbrev cleanCN := clean_call_number_keep_space_before_year

/-- Does `t` end in a space followed by a trailing 4-digit numeral?
Helper for the spec-side formulation of the cleaning rule. -/
def endsSpaceYear (t : List Char) : Bool :=
  decide (5 ≤ t.length) &&
    (match t.drop (t.length - 5) with
     | ' ' :: ds => fourDigits ds
     | _ => false)

/-- Spec-side reformulation of the cleaning rule, following the spec's
words, to be compared with the source translation `cleanCN`: trim,
collapse each whitespace run to one space, then delete every remaining
space except one that immediately precedes a trailing 4-digit numeral
at the very end of the string. -/
def collapseSpacesSpec (s : List Char) : List Char :=
  if s = [] then [] else
    let t := collapse (stripList s)
    if endsSpaceYear t then
      (t.take (t.length - 5)).filter (fun c => c != ' ') ++ t.drop (t.length - 5)
    else
      t.filter (fun c => c != ' ')

/-! Lemmas about characters and `keepSpaces`. -/

theorem beq_false_of_digit {c x : Char} (h : c.isDigit = true)
    (hx : x.isDigit = false) : (c == x) = false := by
  rw [beq_eq_false_iff_ne]
  rintro rfl
  rw [h] at hx
  exact absurd hx (by simp)

theorem not_ws_of_digit {c : Char} (h : c.isDigit = true) : isWS c = false := by
  unfold isWS
  rw [beq_false_of_digit h (by decide), beq_false_of_digit h (by decide),
    beq_false_of_digit h (by decide), beq_false_of_digit h (by decide),
    beq_false_of_digit h (by decide), beq_false_of_digit h (by decide)]
  rfl

theorem ne_space_of_digit {c : Char} (h : c.isDigit = true) : c ≠ ' ' :=
  beq_eq_false_iff_ne.mp (beq_false_of_digit h (by decide))

theorem keepSpaces_cons_ne {c : Char} (hc : c ≠ ' ') (rest : List Char) :
    keepSpaces (c :: rest) = c :: keepSpaces rest := by
  have hb : (c == ' ') = false := beq_eq_false_iff_ne.mpr hc
  simp [keepSpaces, hb]

theorem keepSpaces_space_keep {rest : List Char} (h : fourDigits rest = true) :
    keepSpaces (' ' :: rest) = ' ' :: keepSpaces rest := by
  simp [keepSpaces, h]

theorem keepSpaces_space_drop {rest : List Char} (h : fourDigits rest = false) :
    keepSpaces (' ' :: rest) = keepSpaces rest := by
  simp [keepSpaces, h]

theorem keepSpaces_no_space {l : List Char} (h : ∀ c ∈ l, c ≠ ' ') :
    keepSpaces l = l := by
  induction l with
  | nil => rfl
  | cons c rest ih =>
    rw [keepSpaces_cons_ne (h c (by simp)), ih fun x hx => h x (by simp [hx])]

theorem fourDigits_length {l : List Char} (h : fourDigits l = true) :
    l.length = 4 := by
  simp only [fourDigits, Bool.and_eq_true, beq_iff_eq] at h
  exact h.1

theorem fourDigits_digits {l : List Char} (h : fourDigits l = true) :
    ∀ c ∈ l, c.isDigit = true := by
  simp only [fourDigits, Bool.and_eq_true, List.all_eq_true] at h
  exact fun c hc => h.2 c hc

theorem keepSpaces_append_year {u d : List Char} (hd : fourDigits d = true) :
    keepSpaces (u ++ ' ' :: d) = u.filter (fun c => c != ' ') ++ ' ' :: d := by
  induction u with
  | nil =>
    rw [List.nil_append, List.filter_nil, List.nil_append, keepSpaces_space_keep hd,
      keepSpaces_no_space fun c hc => ne_space_of_digit (fourDigits_digits hd c hc)]
  | cons a u ih =>
    rw [List.cons_append, List.filter_cons]
    by_cases ha : a = ' '
    · subst ha
      have hlen : fourDigits (u ++ ' ' :: d) = false := by
        cases hfd : fourDigits (u ++ ' ' :: d)
        · rfl
        · exfalso
          have h1 := fourDigits_length hfd
          rw [List.length_append, List.length_cons, fourDigits_length hd] at h1
          omega
      rw [keepSpaces_space_drop hlen, ih]
      simp
    · rw [keepSpaces_cons_ne ha, ih]
      have : (a != ' ') = true := by simpa using ha
      rw [this]
      simp

theorem keepSpaces_eq_filter {l : List Char}
    (h : ∀ u d, fourDigits d = true → l ≠ u ++ ' ' :: d) :
    keepSpaces l = l.filter (fun c => c != ' ') := by
  induction l with
  | nil => rfl
  | cons c rest ih =>
    have hrest : ∀ u d, fourDigits d = true → rest ≠ u ++ ' ' :: d := by
      intro u d hd heq
      exact h (c :: u) d hd (by simp [heq])
    rw [List.filter_cons]
    by_cases hc : c = ' '
    · subst hc
      have hfd : fourDigits rest = false := by
        cases hfd : fourDigits rest
        · rfl
        · exact absurd rfl (h [] rest hfd)
      rw [keepSpaces_space_drop hfd, ih hrest]
      simp
    · rw [keepSpaces_cons_ne hc, ih hrest]
      have : (c != ' ') = true := by simpa using hc
      rw [this]
      simp

theorem endsSpaceYear_append {u d : List Char} (hd : fourDigits d = true) :
    endsSpaceYear (u ++ ' ' :: d) = true := by
  have hd4 := fourDigits_length hd
  have hlen : (u ++ ' ' :: d).length = u.length + 5 := by
    rw [List.length_append, List.length_cons, hd4]
  have hdrop : (u ++ ' ' :: d).drop ((u ++ ' ' :: d).length - 5) = ' ' :: d := by
    rw [hlen]
    have h5 : u.length + 5 - 5 = u.length := by omega
    rw [h5, List.drop_append_of_le_length (by omega), List.drop_length, List.nil_append]
  simp only [endsSpaceYear, hdrop, hd, Bool.and_eq_true, decide_eq_true_eq]
  refine ⟨?_, trivial⟩
  rw [hlen]
  omega

theorem endsSpaceYear_decomp {t : List Char} (h : endsSpaceYear t = true) :
    ∃ u d, t = u ++ ' ' :: d ∧ fourDigits d = true ∧
      u = t.take (t.length - 5) ∧ ' ' :: d = t.drop (t.length - 5) := by
  simp only [endsSpaceYear, Bool.and_eq_true, decide_eq_true_eq] at h
  obtain ⟨hlen, hmatch⟩ := h
  split at hmatch
  · next ds heq =>
    refine ⟨t.take (t.length - 5), ds, ?_, hmatch, rfl, heq.symm⟩
    conv_lhs => rw [← List.take_append_drop (t.length - 5) t]
    rw [heq]
  · exact absurd hmatch (by simp)

theorem keepSpaces_eq_specFilter (t : List Char) :
    keepSpaces t =
      if endsSpaceYear t then
        (t.take (t.length - 5)).filter (fun c => c != ' ') ++ t.drop (t.length - 5)
      else
        t.filter (fun c => c != ' ') := by
  by_cases h : endsSpaceYear t = true
  · obtain ⟨u, d, htd, hd, hu, hdrop⟩ := endsSpaceYear_decomp h
    rw [if_pos h, ← hu, ← hdrop, htd]
    exact keepSpaces_append_year hd
  · have h' : endsSpaceYear t = false := by simpa using h
    rw [if_neg (by simp [h'])]
    apply keepSpaces_eq_filter
    intro u d hd heq
    rw [heq, endsSpaceYear_append hd] at h'
    exact absurd h' (by simp)

/-- C4: for every string, cleaning trims it, collapses each whitespace
run to a single space, and deletes every remaining space except one
immediately preceding a trailing 4-digit numeral at the very end;
in particular "QA76.73 .C153 2019" cleans to "QA76.73.C153 2019". -/
theorem claim_C4 :
    (∀ s : List Char, cleanCN s = collapseSpacesSpec s) ∧
      cleanCN "QA76.73 .C153 2019".data = "QA76.73.C153 2019".data := by
  constructor
  · intro s
    unfold cleanCN clean_call_number_keep_space_before_year collapseSpacesSpec
    by_cases hs : s = []
    · simp [hs]
    · rw [if_neg hs, if_neg hs]
      exact keepSpaces_eq_specFilter (collapse (stripList s))
  · decide

/-! Lemmas for idempotence of the cleaning function (C5). -/

theorem keepSpaces_sublist (l : List Char) : List.Sublist (keepSpaces l) l := by
  induction l with
  | nil => exact List.Sublist.refl []
  | cons c rest ih =>
    by_cases h : (c == ' ' && !fourDigits rest) = true
    · simp only [keepSpaces, if_pos h]
      exact ih.cons c
    · simp only [keepSpaces, if_neg h]
      exact ih.cons₂ c

theorem keepSpaces_idem (l : List Char) : keepSpaces (keepSpaces l) = keepSpaces l := by
  induction l with
  | nil => rfl
  | cons c rest ih =>
    by_cases hc : c = ' '
    · subst hc
      cases hfd : fourDigits rest with
      | false => rw [keepSpaces_space_drop hfd, ih]
      | true =>
        have hrest : keepSpaces rest = rest :=
          keepSpaces_no_space fun x hx => ne_space_of_digit (fourDigits_digits hfd x hx)
        rw [keepSpaces_space_keep hfd, hrest, keepSpaces_space_keep hfd, hrest]
    · rw [keepSpaces_cons_ne hc, keepSpaces_cons_ne hc, ih]

theorem keepSpaces_getLast_ne_space (l : List Char) :
    (keepSpaces l).getLast? ≠ some ' ' := by
  induction l with
  | nil => simp [keepSpaces]
  | cons c rest ih =>
    by_cases hc : c = ' '
    · subst hc
      cases hfd : fourDigits rest with
      | false => rw [keepSpaces_space_drop hfd]; exact ih
      | true =>
        have hrest : keepSpaces rest = rest :=
          keepSpaces_no_space fun x hx => ne_space_of_digit (fourDigits_digits hfd x hx)
        rw [keepSpaces_space_keep hfd, hrest]
        rcases rest with _ | ⟨r1, rtail⟩
        · exact absurd (fourDigits_length hfd) (by simp)
        · rw [List.getLast?_cons_cons]
          intro hlast
          have hmem : ' ' ∈ r1 :: rtail := List.mem_of_mem_getLast? hlast
          exact absurd (fourDigits_digits hfd ' ' hmem) (by decide)
    · rw [keepSpaces_cons_ne hc]
      rcases hks : keepSpaces rest with _ | ⟨x, xs⟩
      · simp only [List.getLast?_singleton]
        intro hlast
        exact hc (by injection hlast)
      · rw [List.getLast?_cons_cons]
        rw [hks] at ih
        exact ih

/-- Custom recursion principle following the shape of `collapse`. -/
theorem collapse_rec {motive : List Char → Prop}
    (h0 : motive [])
    (h1 : ∀ c, motive [c])
    (h2 : ∀ a b rest, motive (b :: rest) → motive (a :: b :: rest)) :
    ∀ l, motive l
  | [] => h0
  | [c] => h1 c
  | a :: b :: rest => h2 a b rest (collapse_rec h0 h1 h2 (b :: rest))

/-- Bool predicate: any whitespace character is a plain space. -/
def okWS (c : Char) : Bool := !isWS c || (c == ' ')

theorem okWS_iff {c : Char} : okWS c = true ↔ (isWS c = true → c = ' ') := by
  cases h : isWS c <;> simp [okWS, h]

/-- Normal form of whitespace collapsing: every whitespace character is
a plain space and no two adjacent characters are both whitespace. -/
def collapsedForm : List Char → Bool
  | [] => true
  | a :: rest =>
    (okWS a && match rest with
      | [] => true
      | b :: _ => !(isWS a && isWS b)) && collapsedForm rest

theorem bool_cases (b : Bool) : b = false ∨ b = true := by
  cases b
  · exact Or.inl rfl
  · exact Or.inr rfl

theorem bool_ne_true {b : Bool} (h : b = false) : ¬(b = true) := by
  rw [h]
  simp

theorem collapsedForm_cons_iff {a : Char} {l : List Char} :
    collapsedForm (a :: l) = true ↔
      okWS a = true ∧ (∀ b, l.head? = some b → (isWS a && isWS b) = false) ∧
        collapsedForm l = true := by
  cases l with
  | nil =>
    show ((okWS a && true) && true) = true ↔ _
    constructor
    · intro hx
      refine ⟨?_, fun b hb => by simp at hb, rfl⟩
      simpa using hx
    · rintro ⟨hx, -, -⟩
      simp [hx]
  | cons b tl =>
    show ((okWS a && !(isWS a && isWS b)) && collapsedForm (b :: tl)) = true ↔ _
    rw [Bool.and_eq_true, Bool.and_eq_true, Bool.not_eq_true']
    constructor
    · rintro ⟨⟨hx, hy⟩, hz⟩
      refine ⟨hx, ?_, hz⟩
      intro b' hb
      injection hb with hb
      subst hb
      exact hy
    · rintro ⟨hx, hy, hz⟩
      exact ⟨⟨hx, hy b rfl⟩, hz⟩

theorem collapsedForm_tail {a : Char} {l : List Char}
    (h : collapsedForm (a :: l) = true) : collapsedForm l = true :=
  (collapsedForm_cons_iff.mp h).2.2

theorem collapse_cons (xs : List Char) (x : Char) :
    ∃ tl, collapse (x :: xs) = (if isWS x then ' ' else x) :: tl := by
  induction xs generalizing x with
  | nil =>
    rcases bool_cases (isWS x) with hx | hx
    · exact ⟨[], by simp only [collapse]; rw [if_neg (bool_ne_true hx), if_neg (bool_ne_true hx)]⟩
    · exact ⟨[], by simp only [collapse]; rw [if_pos hx, if_pos hx]⟩
  | cons b rest ih =>
    by_cases h : (isWS x && isWS b) = true
    · obtain ⟨tl, htl⟩ := ih b
      refine ⟨tl, ?_⟩
      simp only [collapse]
      rw [if_pos h, htl]
      obtain ⟨hx, hb⟩ := Bool.and_eq_true _ _ |>.mp h
      rw [hx, hb]
      simp
    · refine ⟨collapse (b :: rest), ?_⟩
      simp only [collapse]
      rw [if_neg h]

theorem collapse_mem {l : List Char} :
    ∀ c ∈ collapse l, isWS c = true → c = ' ' := by
  induction l using collapse_rec with
  | h0 => intro c hc; simp [collapse] at hc
  | h1 x =>
    intro c hc hwc
    rcases bool_cases (isWS x) with hx | hx
    · rw [show collapse [x] = [x] by simp only [collapse]; rw [if_neg (bool_ne_true hx)],
        List.mem_singleton] at hc
      subst hc
      exact absurd hwc (bool_ne_true hx)
    · rw [show collapse [x] = [' '] by simp only [collapse]; rw [if_pos hx],
        List.mem_singleton] at hc
      exact hc
  | h2 a b rest ih =>
    intro c hc hwc
    by_cases hab : (isWS a && isWS b) = true
    · rw [show collapse (a :: b :: rest) = collapse (b :: rest) by
        simp only [collapse]; rw [if_pos hab]] at hc
      exact ih c hc hwc
    · rw [show collapse (a :: b :: rest) = (if isWS a then ' ' else a) :: collapse (b :: rest) by
        simp only [collapse]; rw [if_neg hab]] at hc
      rcases List.mem_cons.mp hc with hc1 | hc2
      · subst hc1
        rcases bool_cases (isWS a) with ha | ha
        · rw [if_neg (bool_ne_true ha)] at hwc
          exact absurd hwc (bool_ne_true ha)
        · rw [if_pos ha]
      · exact ih c hc2 hwc

theorem collapsedForm_collapse (l : List Char) :
    collapsedForm (collapse l) = true := by
  induction l using collapse_rec with
  | h0 => rfl
  | h1 x =>
    rcases bool_cases (isWS x) with hx | hx
    · rw [show collapse [x] = [x] by simp only [collapse]; rw [if_neg (bool_ne_true hx)]]
      rw [collapsedForm_cons_iff]
      exact ⟨okWS_iff.mpr (fun hw => absurd hw (bool_ne_true hx)), fun b hb => by simp at hb, rfl⟩
    · rw [show collapse [x] = [' '] by simp only [collapse]; rw [if_pos hx]]
      decide
  | h2 a b rest ih =>
    by_cases hab : (isWS a && isWS b) = true
    · rw [show collapse (a :: b :: rest) = collapse (b :: rest) by
        simp only [collapse]; rw [if_pos hab]]
      exact ih
    · rw [show collapse (a :: b :: rest) = (if isWS a then ' ' else a) :: collapse (b :: rest) by
        simp only [collapse]; rw [if_neg hab]]
      obtain ⟨tl, htl⟩ := collapse_cons rest b
      rw [htl] at ih ⊢
      rw [collapsedForm_cons_iff]
      refine ⟨?_, ?_, ih⟩
      · rcases bool_cases (isWS a) with ha | ha
        · rw [if_neg (bool_ne_true ha)]
          exact okWS_iff.mpr (fun hw => absurd hw (bool_ne_true ha))
        · rw [if_pos ha]
          decide
      · intro y hy
        injection hy with hy
        subst hy
        rcases bool_cases (isWS a) with ha | ha
        · rw [if_neg (bool_ne_true ha), ha, Bool.false_and]
        · have hb : isWS b = false := by
            rcases bool_cases (isWS b) with hb | hb
            · exact hb
            · exact absurd (by rw [ha, hb]; rfl : (isWS a && isWS b) = true) hab
          rw [if_pos ha, if_neg (bool_ne_true hb), hb, Bool.and_false]

theorem collapsedForm_keepSpaces {l : List Char}
    (h : collapsedForm l = true) : collapsedForm (keepSpaces l) = true := by
  induction l with
  | nil => rfl
  | cons a rest ih =>
    obtain ⟨hok, hpair, hrest⟩ := collapsedForm_cons_iff.mp h
    by_cases ha : a = ' '
    · subst ha
      cases hfd : fourDigits rest with
      | false => rw [keepSpaces_space_drop hfd]; exact ih hrest
      | true =>
        have hns : keepSpaces rest = rest :=
          keepSpaces_no_space fun x hx => ne_space_of_digit (fourDigits_digits hfd x hx)
        rw [keepSpaces_space_keep hfd, hns]
        rw [collapsedForm_cons_iff]
        refine ⟨by decide, ?_, hrest⟩
        intro b hb
        have hbd : b.isDigit = true :=
          fourDigits_digits hfd b (by cases rest with
            | nil => simp at hb
            | cons r rtl => injection hb with hb; rw [hb]; simp)
        rw [not_ws_of_digit hbd]
        simp
    · rw [keepSpaces_cons_ne ha]
      have hws : isWS a = false := by
        rcases bool_cases (isWS a) with hws | hws
        · exact hws
        · exact absurd (okWS_iff.mp hok hws) ha
      rw [collapsedForm_cons_iff]
      refine ⟨hok, ?_, ih hrest⟩
      intro b _
      rw [hws]
      simp

theorem collapse_of_collapsedForm {l : List Char}
    (h : collapsedForm l = true) : collapse l = l := by
  induction l using collapse_rec with
  | h0 => rfl
  | h1 x =>
    obtain ⟨hok, -, -⟩ := collapsedForm_cons_iff.mp h
    rcases bool_cases (isWS x) with hx | hx
    · simp only [collapse]
      rw [if_neg (bool_ne_true hx)]
    · have hx' : x = ' ' := okWS_iff.mp hok hx
      subst hx'
      simp only [collapse]
      rw [if_pos hx]
  | h2 a b rest ih =>
    obtain ⟨hok, hpair, hrest⟩ := collapsedForm_cons_iff.mp h
    have hab : (isWS a && isWS b) = false := hpair b rfl
    simp only [collapse]
    rw [if_neg (bool_ne_true hab), ih hrest]
    rcases bool_cases (isWS a) with ha | ha
    · rw [if_neg (bool_ne_true ha)]
    · have ha' : a = ' ' := okWS_iff.mp hok ha
      subst ha'
      rw [if_pos ha]
theorem dropWhile_head_false {p : Char → Bool} {l : List Char} {c : Char} {tl : List Char}
    (h : l.dropWhile p = c :: tl) : p c = false := by
  induction l with
  | nil => simp at h
  | cons a rest ih =>
    rw [List.dropWhile_cons] at h
    by_cases hp : p a = true
    · rw [if_pos hp] at h
      exact ih h
    · rw [if_neg hp] at h
      injection h with h1 _
      subst h1
      simpa using hp

theorem dropWhile_eq_self {p : Char → Bool} {l : List Char}
    (h : ∀ c, l.head? = some c → p c = false) : l.dropWhile p = l := by
  cases l with
  | nil => rfl
  | cons a rest =>
    rw [List.dropWhile_cons, h a rfl]
    simp

theorem stripList_eq_self {l : List Char}
    (hh : ∀ c, l.head? = some c → isWS c = false)
    (hl : ∀ c, l.getLast? = some c → isWS c = false) :
    stripList l = l := by
  unfold stripList
  rw [dropWhile_eq_self hh,
    dropWhile_eq_self (fun c hc => hl c (by rwa [List.head?_reverse] at hc)),
    List.reverse_reverse]

theorem stripList_head_not_ws {s : List Char} {x : Char} {xs : List Char}
    (h : stripList s = x :: xs) : isWS x = false := by
  unfold stripList at h
  have hZ : List.IsSuffix ((s.dropWhile isWS).reverse.dropWhile isWS) (s.dropWhile isWS).reverse :=
    List.dropWhile_suffix isWS
  have hpre : List.IsPrefix ((s.dropWhile isWS).reverse.dropWhile isWS).reverse (s.dropWhile isWS) := by
    have h2 := List.reverse_prefix.mpr hZ
    rwa [List.reverse_reverse] at h2
  rw [h] at hpre
  obtain ⟨rest, hrest⟩ := hpre
  rw [List.cons_append] at hrest
  exact dropWhile_head_false hrest.symm

/-- C5: the call-number cleaning function is idempotent. -/
theorem claim_C5 : ∀ s : List Char, cleanCN (cleanCN s) = cleanCN s := by
  intro s
  by_cases hs : s = []
  · subst hs
    rfl
  · have hr : cleanCN s = keepSpaces (collapse (stripList s)) := by
      unfold cleanCN clean_call_number_keep_space_before_year
      rw [if_neg hs]
    set t := collapse (stripList s) with ht
    set r := keepSpaces t with hrdef
    rw [hr]
    by_cases hr0 : r = []
    · rw [hr0]
      rfl
    · unfold cleanCN clean_call_number_keep_space_before_year
      rw [if_neg hr0]
      have hh : ∀ c, r.head? = some c → isWS c = false := by
        intro c hc
        rcases hS : stripList s with _ | ⟨x, xs⟩
        · exfalso
          apply hr0
          rw [hrdef, ht, hS]
          rfl
        · have hxw : isWS x = false := stripList_head_not_ws hS
          obtain ⟨tl, htl⟩ := collapse_cons xs x
          rw [if_neg (by simp [hxw])] at htl
          have hxs : x ≠ ' ' := by
            intro hx
            rw [hx] at hxw
            simp [isWS] at hxw
          have hrx : r = x :: keepSpaces tl := by
            rw [hrdef, ht, hS, htl, keepSpaces_cons_ne hxs]
          rw [hrx] at hc
          injection hc with hc1
          rw [← hc1]
          exact hxw
      have hl : ∀ c, r.getLast? = some c → isWS c = false := by
        intro c hc
        cases hcw : isWS c
        · rfl
        · exfalso
          have hmem : c ∈ r := List.mem_of_mem_getLast? hc
          have hmt : c ∈ t := (keepSpaces_sublist t).mem hmem
          have hcs : c = ' ' := collapse_mem c hmt hcw
          subst hcs
          exact keepSpaces_getLast_ne_space t hc
      rw [stripList_eq_self hh hl]
      rw [collapse_of_collapsedForm (collapsedForm_keepSpaces (collapsedForm_collapse (stripList s)))]
      rw [hrdef, keepSpaces_idem]

/-! Availability splitting (`extract_from_physical_availability`). -/

/-- Python `.*$` (no `DOTALL`, no `MULTILINE`) matching a whole remainder
string: `.` does not match a newline and `$` matches at the end or just
before a final newline, so the match succeeds exactly when the remainder
contains no newline except possibly a single final one. -/
def dotStarDollar (l : List Char) : Bool :=
  l.all (fun c => c != '\n') ||
    (l.getLast? == some '\n' && l.dropLast.all (fun c => c != '\n'))

/-- Split a string at its first ';' (the forced split of `[^;]*;` with
backtracking): `some (before, after)` when some ';' occurs.  The head of
the `dropWhile` result, when non-empty, is necessarily the first ';'
itself, so it is discarded. -/
def breakSemi (l : List Char) : Option (List Char × List Char) :=
  match l.dropWhile (fun c => c != ';') with
  | [] => none
  | _ :: r => some (l.takeWhile (fun c => c != ';'), r)

/-- Source `extract_from_physical_availability`: empty guard,
strip, then `re.match(r'^([^;]*);[^;]*;([^;]*);.*$', s)` keeping group 1
(location) and group 2 (the text between the 2nd and 3rd ';'), both
stripped; when the pattern does not match, return `(s, "")`. -/
def extract_from_physical_availability (text : List Char) : List Char × List Char :=
  if text = [] then ([], [])
  else
    match breakSemi (stripList text) with
    | some (g1, r1) =>
      match breakSemi r1 with
      | some (_, r2) =>
        match breakSemi r2 with
        | some (g2, rest) =>
          if dotStarDollar rest then (stripList g1, stripList g2)
          else (stripList text, [])
        | none => (stripList text, [])
      | none => (stripList text, [])
    | none => (stripList text, [])

theorem dropWhile_append_semi {v : List Char} :
    ∀ {u : List Char}, (∀ c ∈ u, c ≠ ';') →
      (u ++ ';' :: v).dropWhile (fun c => c != ';') = ';' :: v := by
  intro u
  induction u with
  | nil =>
    intro _
    rw [List.nil_append, List.dropWhile_cons]
    simp
  | cons a u ih =>
    intro h
    rw [List.cons_append, List.dropWhile_cons, if_pos (by simpa using h a (by simp))]
    exact ih fun c hc => h c (by simp [hc])

theorem takeWhile_append_semi {v : List Char} :
    ∀ {u : List Char}, (∀ c ∈ u, c ≠ ';') →
      (u ++ ';' :: v).takeWhile (fun c => c != ';') = u := by
  intro u
  induction u with
  | nil =>
    intro _
    rw [List.nil_append, List.takeWhile_cons]
    simp
  | cons a u ih =>
    intro h
    rw [List.cons_append, List.takeWhile_cons, if_pos (by simpa using h a (by simp))]
    rw [ih fun c hc => h c (by simp [hc])]

theorem breakSemi_append {u : List Char} (v : List Char) (h : ∀ c ∈ u, c ≠ ';') :
    breakSemi (u ++ ';' :: v) = some (u, v) := by
  unfold breakSemi
  rw [dropWhile_append_semi h, takeWhile_append_semi h]

theorem breakSemi_none {l : List Char} (h : breakSemi l = none) :
    ∀ c ∈ l, c ≠ ';' := by
  intro c hc
  have hnil : l.dropWhile (fun c => c != ';') = [] := by
    unfold breakSemi at h
    rcases hdw : l.dropWhile (fun c => c != ';') with _ | ⟨x, r⟩
    · rfl
    · rw [hdw] at h
      simp at h
  have hall := List.dropWhile_eq_nil_iff.mp hnil
  intro hceq
  subst hceq
  have := hall _ hc
  simp at this

theorem breakSemi_some {l g r : List Char} (h : breakSemi l = some (g, r)) :
    l = g ++ ';' :: r ∧ ∀ c ∈ g, c ≠ ';' := by
  unfold breakSemi at h
  rcases hdw : l.dropWhile (fun c => c != ';') with _ | ⟨x, rr⟩
  · rw [hdw] at h
    simp at h
  · rw [hdw] at h
    injection h with h
    injection h with hg hr
    have hx : x = ';' := by
      have := dropWhile_head_false hdw
      simpa using this
    subst hx hg hr
    constructor
    · conv_lhs => rw [← List.takeWhile_append_dropWhile (p := fun c => c != ';') (l := l)]
      rw [hdw]
    · intro c hc
      have := List.mem_takeWhile_imp hc
      simpa using this

/-- C6 counterexample: an availability string with three semicolons but a
newline after the third one is NOT split (Python's `.*$` fails), although
the claim says every input with at least 3 semicolons is split. -/
theorem claim_C6_counterexample :
    3 ≤ ("Stacks;i;QA76 .C15;x\ny".data.count ';') ∧
    extract_from_physical_availability "Stacks;i;QA76 .C15;x\ny".data
        ≠ ("Stacks".data, "QA76 .C15".data) ∧
    extract_from_physical_availability "Stacks;i;QA76 .C15;x\ny".data
        = ("Stacks;i;QA76 .C15;x\ny".data, []) := by
  refine ⟨by decide, by decide, by decide⟩

/-- C6 (amended): empty input yields `("", "")`; input whose trimmed form
has fewer than three semicolons yields the whole trimmed string as
location and an empty call number; when the trimmed input splits at its
first three semicolons as `g1 ; mid ; g2 ; rest`, the result is the
trimmed `g1` (location) and trimmed `g2` (call number) exactly when
`rest` contains no newline except possibly a single final one (the
condition under which Python's `.*$` matches `rest`), and otherwise —
a newline at a non-final position of `rest` — the fallback (whole trimmed
string, empty call number) applies; in particular
"Stacks;ignored;QA76 .C15;ignored2" splits into
("Stacks", "QA76 .C15").  (The amendment: with at least 3 semicolons the
split additionally requires the text after the third semicolon to be
free of non-final newlines; otherwise the fallback applies, exactly as
for inputs with fewer than 3 semicolons.) -/
theorem claim_C6 :
    (extract_from_physical_availability [] = ([], [])) ∧
    (∀ text : List Char, (stripList text).count ';' < 3 →
      extract_from_physical_availability text = (stripList text, [])) ∧
    (∀ (text g1 mid g2 rest : List Char),
      stripList text = g1 ++ ';' :: (mid ++ ';' :: (g2 ++ ';' :: rest)) →
      (∀ c ∈ g1, c ≠ ';') → (∀ c ∈ mid, c ≠ ';') → (∀ c ∈ g2, c ≠ ';') →
      dotStarDollar rest = true →
      extract_from_physical_availability text = (stripList g1, stripList g2)) ∧
    (∀ (text g1 mid g2 rest : List Char),
      stripList text = g1 ++ ';' :: (mid ++ ';' :: (g2 ++ ';' :: rest)) →
      (∀ c ∈ g1, c ≠ ';') → (∀ c ∈ mid, c ≠ ';') → (∀ c ∈ g2, c ≠ ';') →
      dotStarDollar rest = false →
      extract_from_physical_availability text = (stripList text, [])) ∧
    extract_from_physical_availability "Stacks;ignored;QA76 .C15;ignored2".data
      = ("Stacks".data, "QA76 .C15".data) := by
  refine ⟨rfl, ?_, ?_, ?_, by decide⟩
  · intro text hcount
    by_cases ht : text = []
    · subst ht
      rfl
    · rcases h1 : breakSemi (stripList text) with _ | ⟨g1, r1⟩
      · simp only [extract_from_physical_availability, if_neg ht, h1]
      · obtain ⟨hdec1, hn1⟩ := breakSemi_some h1
        have hc1 : (stripList text).count ';' = r1.count ';' + 1 := by
          rw [hdec1, List.count_append, List.count_cons_self,
            List.count_eq_zero.mpr (fun hmem => hn1 ';' hmem rfl)]
          omega
        rcases h2 : breakSemi r1 with _ | ⟨g2x, r2⟩
        · simp only [extract_from_physical_availability, if_neg ht, h1, h2]
        · obtain ⟨hdec2, hn2⟩ := breakSemi_some h2
          have hc2 : r1.count ';' = r2.count ';' + 1 := by
            rw [hdec2, List.count_append, List.count_cons_self,
              List.count_eq_zero.mpr (fun hmem => hn2 ';' hmem rfl)]
            omega
          rcases h3 : breakSemi r2 with _ | ⟨g3, r3⟩
          · simp only [extract_from_physical_availability, if_neg ht, h1, h2, h3]
          · exfalso
            obtain ⟨hdec3, hn3⟩ := breakSemi_some h3
            have hc3 : r2.count ';' = r3.count ';' + 1 := by
              rw [hdec3, List.count_append, List.count_cons_self,
                List.count_eq_zero.mpr (fun hmem => hn3 ';' hmem rfl)]
              omega
            omega
  · intro text g1 mid g2 rest hdec h1 h2 h3 hd
    have ht : text ≠ [] := by
      intro ht
      subst ht
      simp [stripList] at hdec
    simp only [extract_from_physical_availability, if_neg ht, hdec,
      breakSemi_append (mid ++ ';' :: (g2 ++ ';' :: rest)) h1,
      breakSemi_append (g2 ++ ';' :: rest) h2,
      breakSemi_append rest h3, hd, if_pos]
  · intro text g1 mid g2 rest hdec h1 h2 h3 hd
    have ht : text ≠ [] := by
      intro ht
      subst ht
      simp [stripList] at hdec
    have hd' : ¬ (dotStarDollar rest = true) := bool_ne_true hd
    simp only [extract_from_physical_availability, if_neg ht, hdec,
      breakSemi_append (mid ++ ';' :: (g2 ++ ';' :: rest)) h1,
      breakSemi_append (g2 ++ ';' :: rest) h2,
      breakSemi_append rest h3, if_neg hd']

/-- C6 witness: the amended theorem applied at concrete inputs — one with
fewer than three semicolons, one that splits, and one with at least
three semicolons that falls back because of a newline after the third. -/
theorem claim_C6_witness :
    (extract_from_physical_availability "NoSemicolonsHere".data
      = (stripList "NoSemicolonsHere".data, [])) ∧
    (extract_from_physical_availability "Shelf;x;QA1 .B2;note".data
      = (stripList "Shelf".data, stripList "QA1 .B2".data)) ∧
    (extract_from_physical_availability "Shelf;x;QA1 .B2;a\nb".data
      = (stripList "Shelf;x;QA1 .B2;a\nb".data, [])) :=
  ⟨claim_C6.2.1 "NoSemicolonsHere".data (by decide),
   claim_C6.2.2.1 "Shelf;x;QA1 .B2;note".data
     "Shelf".data "x".data "QA1 .B2".data "note".data
     (by decide) (by decide) (by decide) (by decide) (by decide),
   claim_C6.2.2.2.1 "Shelf;x;QA1 .B2;a\nb".data
     "Shelf".data "x".data "QA1 .B2".data "a\nb".data
     (by decide) (by decide) (by decide) (by decide) (by decide)⟩

/-! Field selection (`best_call_number_for_sort`). -/

/-- Source `best_call_number_for_sort`: iterate over the fields
LC Call Number, Local Call Number, CNfromPA in that order, reading an
absent field (`row.get(k) or ""`) as the empty string, and return the
first whose stripped value is non-empty; otherwise return "". -/
def best_call_number_for_sort (lc loc cn : Option (List Char)) : List Char :=
  let v1 := stripList (lc.getD [])
  if v1 ≠ [] then v1
  else
    let v2 := stripList (loc.getD [])
    if v2 ≠ [] then v2
    else
      let v3 := stripList (cn.getD [])
      if v3 ≠ [] then v3 else []

/-- Spec-side formulation of the field-selection policy, following the
spec's words: the first non-empty trimmed value among the three fields in
the fixed priority order, or the empty string. -/
def selectForRanking (lc loc cn : Option (List Char)) : List Char :=
  ((([lc, loc, cn]).map (fun o => stripList (o.getD []))).find?
    (fun v => v != [])).getD []

/-- C9: the string selected for ranking is the first non-empty trimmed
value among LC Call Number, Local Call Number, CNfromPA, in that fixed
priority order, and empty when all three are empty or absent; a non-empty
lower-priority field is never selected while a higher-priority one is
non-empty. -/
theorem claim_C9 :
    (∀ lc loc cn : Option (List Char),
      best_call_number_for_sort lc loc cn = selectForRanking lc loc cn) ∧
    (∀ lc loc cn : Option (List Char), stripList (lc.getD []) ≠ [] →
      best_call_number_for_sort lc loc cn = stripList (lc.getD [])) ∧
    (∀ lc loc cn : Option (List Char), stripList (lc.getD []) = [] →
      stripList (loc.getD []) ≠ [] →
      best_call_number_for_sort lc loc cn = stripList (loc.getD [])) ∧
    (∀ lc loc cn : Option (List Char), stripList (lc.getD []) = [] →
      stripList (loc.getD []) = [] → stripList (cn.getD []) = [] →
      best_call_number_for_sort lc loc cn = []) := by
  refine ⟨?_, ?_, ?_, ?_⟩
  · intro lc loc cn
    unfold best_call_number_for_sort selectForRanking
    by_cases h1 : stripList (lc.getD []) = []
    · have hb1 : (stripList (lc.getD []) != []) = false := by simp [h1]
      by_cases h2 : stripList (loc.getD []) = []
      · have hb2 : (stripList (loc.getD []) != []) = false := by simp [h2]
        by_cases h3 : stripList (cn.getD []) = []
        · have hb3 : (stripList (cn.getD []) != []) = false := by simp [h3]
          simp [h1, h2, h3, hb1, hb2, hb3, List.find?]
        · have hb3 : (stripList (cn.getD []) != []) = true := by simp [h3]
          simp [h1, h2, h3, hb1, hb2, hb3, List.find?]
      · have hb2 : (stripList (loc.getD []) != []) = true := by simp [h2]
        simp [h1, h2, hb1, hb2, List.find?]
    · have hb1 : (stripList (lc.getD []) != []) = true := by simp [h1]
      simp [h1, hb1, List.find?]
  · intro lc loc cn h1
    unfold best_call_number_for_sort
    rw [if_pos h1]
  · intro lc loc cn h1 h2
    unfold best_call_number_for_sort
    rw [if_neg (by simp [h1]), if_pos h2]
  · intro lc loc cn h1 h2 h3
    unfold best_call_number_for_sort
    rw [if_neg (by simp [h1]), if_neg (by simp [h2]), if_neg (by simp [h3])]

/-- C9 witness: the selection theorem applied at concrete field values. -/
theorem claim_C9_witness :
    best_call_number_for_sort (some "QA76".data) (some "X1".data) none
        = stripList "QA76".data ∧
      best_call_number_for_sort none (some " X1 ".data) (some "Y2".data)
        = stripList " X1 ".data ∧
      best_call_number_for_sort (some "  ".data) none (some "".data) = [] := by
  refine ⟨claim_C9.2.1 _ _ _ (by decide), claim_C9.2.2.1 _ _ _ (by decide) (by decide),
    claim_C9.2.2.2 _ _ _ (by decide) (by decide) (by decide)⟩

/-! LC call number parsing to a sortable key. -/

/-- Python `str.upper()` (basic latin letters; the catalog data's case). -/
def upperList (l : List Char) : List Char := l.map Char.toUpper

/-- Python `str.replace("..", ".")`: non-overlapping, left to right. -/
def replaceDD : List Char → List Char
  | [] => []
  | [c] => [c]
  | a :: b :: r =>
    if a = '.' ∧ b = '.' then '.' :: replaceDD r else a :: replaceDD (b :: r)

/-- Python `str.replace(" .", ".")`: non-overlapping, left to right. -/
def replaceSD : List Char → List Char
  | [] => []
  | [c] => [c]
  | a :: b :: r =>
    if a = ' ' ∧ b = '.' then '.' :: replaceSD r else a :: replaceSD (b :: r)

/-- The normalisation at the start of `lc_sort_key`:
`raw.strip().upper()`, whitespace collapse, `".." -> "."`, `" ." -> "."`,
final strip. -/
def normalizeCN (raw : List Char) : List Char :=
  stripList (replaceSD (replaceDD (collapse (upperList (stripList raw)))))

/-- Python `int` on a non-empty digit string. -/
def natVal (l : List Char) : ℕ := l.foldl (fun a c => a * 10 + (c.toNat - 48)) 0

/-- Source `_parse_class_and_number`:
`re.match(r"\s*([A-Z]{1,3})\s*([0-9]+(?:\.[0-9]+)?)?", s)`, returning the
class letters, the class number (or `⊤` when absent - Python's `inf`) and
the remainder of the string after the match (the whole of `s` when no
letters match, i.e. end index 0).  The regex's character classes are
mutually disjoint, so its backtracking search equals this deterministic
greedy scan; the `float` value of `"a.b"` is modelled exactly as the
rational `ab / 10^len(b)`. -/
def parse_class_and_number (s : List Char) : List Char × WithTop ℚ × List Char :=
  let t := s.dropWhile isWS
  let letters := (t.takeWhile Char.isUpper).take 3
  if letters = [] then ([], ⊤, s)
  else
    let t2 := (t.drop letters.length).dropWhile isWS
    let ip := t2.takeWhile Char.isDigit
    if ip = [] then (letters, ⊤, t2)
    else
      let t3 := t2.drop ip.length
      match t3 with
      | [] => (letters, ((natVal ip : ℚ) : WithTop ℚ), t3)
      | c :: t4 =>
        if c = '.' then
          let fp := t4.takeWhile Char.isDigit
          if fp = [] then (letters, ((natVal ip : ℚ) : WithTop ℚ), t3)
          else (letters, (((natVal (ip ++ fp) : ℚ) / (10 : ℚ) ^ fp.length : ℚ) : WithTop ℚ),
            t4.drop fp.length)
        else (letters, ((natVal ip : ℚ) : WithTop ℚ), t3)

/-- Python `'.' == head` test without a literal pattern: drop a single
leading period (the `\.?` of `_cutter_re`). -/
def dropDot : List Char → List Char
  | [] => []
  | c :: r => if c = '.' then r else c :: r

/-- One attempt of `_cutter_re = \.?\s*([A-Z])\s*([0-9]+)` anchored at the
current position: optional period, whitespace, one uppercase letter,
whitespace, then a maximal non-empty digit run.  The character classes
are disjoint, so regex backtracking never succeeds where this greedy scan
fails.  Returns the captured letter and number plus the remainder after
the match. -/
def tryMatchCutter (l : List Char) : Option (Char × ℕ × List Char) :=
  match (dropDot l).dropWhile isWS with
  | [] => none
  | c :: r =>
    if c.isUpper then
      if ((r.dropWhile isWS).takeWhile Char.isDigit) = [] then none
      else some (c, natVal ((r.dropWhile isWS).takeWhile Char.isDigit),
        (r.dropWhile isWS).drop ((r.dropWhile isWS).takeWhile Char.isDigit).length)
    else none

theorem dropDot_length_le (l : List Char) : (dropDot l).length ≤ l.length := by
  cases l with
  | nil => exact Nat.le_refl _
  | cons c r =>
    show (if c = '.' then r else c :: r).length ≤ (c :: r).length
    by_cases hc : c = '.'
    · rw [if_pos hc]
      simp
    · rw [if_neg hc]

theorem tryMatchCutter_lt {l : List Char} {c : Char} {n : ℕ} {r : List Char}
    (h : tryMatchCutter l = some (c, n, r)) : r.length < l.length := by
  unfold tryMatchCutter at h
  split at h
  · simp at h
  · next x xr hm =>
    split at h
    · split at h
      · simp at h
      · rename_i hd
        injection h with h
        injection h with _ h
        injection h with _ hr
        have h1 : ((dropDot l).dropWhile isWS).length ≤ (dropDot l).length :=
          (List.dropWhile_sublist _).length_le
        have h2 := dropDot_length_le l
        have h3 : (xr.dropWhile isWS).length ≤ xr.length :=
          (List.dropWhile_sublist _).length_le
        have h4 : 1 ≤ ((xr.dropWhile isWS).takeWhile Char.isDigit).length := by
          rcases hne : (xr.dropWhile isWS).takeWhile Char.isDigit with _ | ⟨y, ys⟩
          · exact absurd hne hd
          · simp
        have h5 : r.length =
            (xr.dropWhile isWS).length - ((xr.dropWhile isWS).takeWhile Char.isDigit).length := by
          rw [← hr, List.length_drop]
        have h6 : ((dropDot l).dropWhile isWS).length = xr.length + 1 := by
          rw [hm, List.length_cons]
        omega
    · simp at h

/-- Fuelled version of the cutter `finditer` loop: the fuel only bounds
the number of scan steps (each step advances past a match or by one
character, so the string length suffices; see `cutterScan_cons`). -/
def cutterScanF : ℕ → List Char → List (Char × ℕ)
  | 0, _ => []
  | _, [] => []
  | fuel + 1, c :: rest =>
    match tryMatchCutter (c :: rest) with
    | some (a, n, r) => (a, n) :: cutterScanF fuel r
    | none => cutterScanF fuel rest

/-- Scan `_cutter_re.finditer`: emit the groups of each successive leftmost
match, resuming right after each match. -/
def cutterScan (l : List Char) : List (Char × ℕ) := cutterScanF l.length l

theorem cutterScanF_nil : ∀ fuel : ℕ, cutterScanF fuel [] = []
  | 0 => rfl
  | _ + 1 => rfl

theorem cutterScanF_cons_some {c : Char} {rest : List Char} {a : Char} {n : ℕ}
    {r : List Char} (fuel : ℕ) (hm : tryMatchCutter (c :: rest) = some (a, n, r)) :
    cutterScanF (fuel + 1) (c :: rest) = (a, n) :: cutterScanF fuel r := by
  show (match tryMatchCutter (c :: rest) with
    | some (a, n, r) => (a, n) :: cutterScanF fuel r
    | none => cutterScanF fuel rest) = _
  rw [hm]

theorem cutterScanF_cons_none {c : Char} {rest : List Char} (fuel : ℕ)
    (hm : tryMatchCutter (c :: rest) = none) :
    cutterScanF (fuel + 1) (c :: rest) = cutterScanF fuel rest := by
  show (match tryMatchCutter (c :: rest) with
    | some (a, n, r) => (a, n) :: cutterScanF fuel r
    | none => cutterScanF fuel rest) = _
  rw [hm]

theorem cutterScanF_congr : ∀ (fuel fuel' : ℕ) (l : List Char),
    l.length ≤ fuel → l.length ≤ fuel' → cutterScanF fuel l = cutterScanF fuel' l
  | fuel, fuel', [] => by
    intro _ _
    rw [cutterScanF_nil, cutterScanF_nil]
  | 0, fuel', c :: rest => by
    intro h _
    simp at h
  | fuel + 1, 0, c :: rest => by
    intro _ h
    simp at h
  | fuel + 1, fuel' + 1, c :: rest => by
    intro h h'
    have hcc : (c :: rest).length = rest.length + 1 := by rw [List.length_cons]
    rcases hm : tryMatchCutter (c :: rest) with _ | ⟨a, n, r⟩
    · rw [cutterScanF_cons_none fuel hm, cutterScanF_cons_none fuel' hm]
      exact cutterScanF_congr fuel fuel' rest (by omega) (by omega)
    · have hr := tryMatchCutter_lt hm
      rw [cutterScanF_cons_some fuel hm, cutterScanF_cons_some fuel' hm,
        cutterScanF_congr fuel fuel' r (by omega) (by omega)]

theorem cutterScan_nil : cutterScan [] = [] := rfl

/-- The `finditer` recursion satisfied by `cutterScan`: at each position,
either a match starts here (emit it and resume after it) or the scan
advances one character. -/
theorem cutterScan_cons (c : Char) (rest : List Char) :
    cutterScan (c :: rest) =
      match tryMatchCutter (c :: rest) with
      | some (a, n, r) => (a, n) :: cutterScan r
      | none => cutterScan rest := by
  show cutterScanF (rest.length + 1) (c :: rest) = _
  rcases hm : tryMatchCutter (c :: rest) with _ | ⟨a, n, r⟩
  · rw [cutterScanF_cons_none rest.length hm]
    rfl
  · have hr := tryMatchCutter_lt hm
    have hcc : (c :: rest).length = rest.length + 1 := by rw [List.length_cons]
    rw [cutterScanF_cons_some rest.length hm,
      cutterScanF_congr rest.length r.length r (by omega) (Nat.le_refl _)]
    rfl

/-- Does a `_year_re` match start at this position: first digit 1 or 2
(so the value lies in [1000, 2999]), three more digits, and no digit
immediately after (the `(?![0-9])` lookahead).  The `(?:^|[^0-9])` part
of the pattern is the caller's `prev` flag (whether the previous
character is a digit; at the start of the string `^` applies). -/
def yearHere (d1 d2 d3 d4 : Char) (rest : List Char) : Bool :=
  ((d1 == '1') || (d1 == '2')) && d2.isDigit && d3.isDigit && d4.isDigit &&
    (match rest with
     | [] => true
     | e :: _ => !e.isDigit)

/-- Scan `_year_re.finditer(s)` keeping only the last match (source lines
74-80): scan left to right with `prev` recording whether the previous
character is a digit (initially false: `^` allows a match at position 0);
a match consumes its four digits and scanning resumes right after them;
`acc` holds the most recent match's value. -/
def yearScan : Bool → List Char → Option ℕ → Option ℕ
  | _, [], acc => acc
  | prev, d1 :: d2 :: d3 :: d4 :: rest, acc =>
    if !prev && yearHere d1 d2 d3 d4 rest then
      yearScan true rest (some (natVal [d1, d2, d3, d4]))
    else
      yearScan d1.isDigit (d2 :: d3 :: d4 :: rest) acc
  | _, c :: rest, acc => yearScan c.isDigit rest acc

/-- Source `_parse_cutters_and_extras`: the cutter matches in
order of appearance, and the last year match (`⊤` when none). -/
def parse_cutters_and_extras (s : List Char) : List (Char × ℕ) × WithTop ℕ :=
  (cutterScan s,
    match yearScan false s none with
    | some y => (y : WithTop ℕ)
    | none => ⊤)

/-- One cutter slot of the sort key: the cutter letter as a (possibly
empty) string and the cutter number (`⊤` for the `("", inf)` padding),
compared letter first, then number - exactly the order these two
components have inside the flat Python tuple. -/
abbrev CutterKey := Lex (List Char × WithTop ℕ)

/-- The 9-component sort tuple of `lc_sort_key`.  Python compares tuples
lexicographically component by component (strings lexicographically by
code point, numbers with `inf` greatest), which is the nested `Lex`
product order; grouping the flat 9-tuple into nested pairs leaves the
induced order unchanged. -/
abbrev SortKey :=
  Lex (List Char ×
    Lex (WithTop ℚ × Lex (CutterKey × Lex (CutterKey × Lex (CutterKey × WithTop ℕ)))))

/-- Assemble the 9 components of the tuple. -/
def mkKey (letters : List Char) (num : WithTop ℚ) (c1 c2 c3 : CutterKey)
    (year : WithTop ℕ) : SortKey :=
  toLex (letters, toLex (num, toLex (c1, toLex (c2, toLex (c3, year)))))

/-- The `("", inf)` cutter padding. -/
def missingCutter : CutterKey := toLex ([], ⊤)

def keyLetters (k : SortKey) : List Char := (ofLex k).1

def keyClassNum (k : SortKey) : WithTop ℚ := (ofLex (ofLex k).2).1

def keyCutter1 (k : SortKey) : CutterKey := (ofLex (ofLex (ofLex k).2).2).1

def keyCutter2 (k : SortKey) : CutterKey := (ofLex (ofLex (ofLex (ofLex k).2).2).2).1

def keyCutter3 (k : SortKey) : CutterKey :=
  (ofLex (ofLex (ofLex (ofLex (ofLex k).2).2).2).2).1

def keyYear (k : SortKey) : WithTop ℕ :=
  (ofLex (ofLex (ofLex (ofLex (ofLex k).2).2).2).2).2

/-- The three cutter slots of a key, in order. -/
def keyCutters (k : SortKey) : List CutterKey := [keyCutter1 k, keyCutter2 k, keyCutter3 k]

/-- A scanned cutter `(letter, number)` as it enters the tuple: a 1-letter
string and a finite number. -/
def cutterOf (p : Char × ℕ) : CutterKey := toLex ([p.1], (p.2 : WithTop ℕ))

/-- Source `lc_sort_key`.  `"ZZZ"` is the missing-letters
sentinel and `⊤` plays `float("inf")`; the NaN guard on the class number
(`main_num == main_num`) is vacuous here because parsed numbers are never
NaN.  The cutter list is padded with three `("", inf)` pairs and cut to
exactly 3 slots. -/
def lc_sort_key (raw : List Char) : SortKey :=
  if raw = [] then
    mkKey "ZZZ".data ⊤ missingCutter missingCutter missingCutter ⊤
  else
    match parse_class_and_number (normalizeCN raw) with
    | (letters, mainNum, rest) =>
      match parse_cutters_and_extras rest with
      | (cutters, year) =>
        let padded := (cutters.map cutterOf ++
          [missingCutter, missingCutter, missingCutter]).take 3
        mkKey (if letters = [] then "ZZZ".data else letters) mainNum
          (padded.getD 0 missingCutter) (padded.getD 1 missingCutter)
          (padded.getD 2 missingCutter) year

/-- The substring handed to the cutter/year scans: what remains after the
classification segment (the whole normalised string when no class letters
match), and `[]` for the guarded empty input. -/
def classRestOf (raw : List Char) : List Char :=
  if raw = [] then [] else (parse_class_and_number (normalizeCN raw)).2.2

/-- The all-missing key produced for empty or unparseable input. -/
def allMissingKey : SortKey :=
  mkKey "ZZZ".data ⊤ missingCutter missingCutter missingCutter ⊤

/-! C1: the key order is a strict total order. -/

/-- C1: for keys produced by `lc_sort_key`, exactly one of `a < b`,
`a = b`, `b < a` holds, the order is transitive, and sorting a batch of
keys a second time leaves the sorted output unchanged. -/
theorem claim_C1 :
    (∀ s t : List Char,
      lc_sort_key s < lc_sort_key t ∨ lc_sort_key s = lc_sort_key t ∨
        lc_sort_key t < lc_sort_key s) ∧
    (∀ s t : List Char, lc_sort_key s < lc_sort_key t →
      lc_sort_key s ≠ lc_sort_key t ∧ ¬lc_sort_key t < lc_sort_key s) ∧
    (∀ s t : List Char, lc_sort_key s = lc_sort_key t →
      ¬lc_sort_key s < lc_sort_key t ∧ ¬lc_sort_key t < lc_sort_key s) ∧
    (∀ s t u : List Char, lc_sort_key s < lc_sort_key t →
      lc_sort_key t < lc_sort_key u → lc_sort_key s < lc_sort_key u) ∧
    (∀ keys : List SortKey,
      (keys.mergeSort fun a b => decide (a ≤ b)).mergeSort (fun a b => decide (a ≤ b)) =
        keys.mergeSort fun a b => decide (a ≤ b)) := by
  refine ⟨fun s t => lt_trichotomy _ _,
    fun s t h => ⟨ne_of_lt h, lt_asymm h⟩,
    fun s t h => ⟨by rw [h]; exact lt_irrefl _, by rw [h]; exact lt_irrefl _⟩,
    fun s t u h1 h2 => lt_trans h1 h2,
    fun keys => ?_⟩
  apply List.mergeSort_of_sorted
  apply List.sorted_mergeSort
  · intro a b c hab hbc
    simp only [decide_eq_true_eq] at hab hbc ⊢
    exact le_trans hab hbc
  · intro a b
    simp only [Bool.or_eq_true, decide_eq_true_eq]
    exact le_total a b

/-- C1 witness: the asymmetry part of the order theorem at two concrete
call numbers. -/
theorem claim_C1_witness :
    lc_sort_key "PS3561 .A1 2001".data ≠ lc_sort_key "QA76 .C153 2019".data ∧
      ¬lc_sort_key "QA76 .C153 2019".data < lc_sort_key "PS3561 .A1 2001".data :=
  claim_C1.2.1 _ _ (by decide)

/-! C3: how missing components sort. -/

theorem upper_le_Z {c : Char} (h : c.isUpper = true) : c ≤ 'Z' := by
  simp only [Char.isUpper, Bool.and_eq_true, decide_eq_true_eq] at h
  exact Char.le_def.mpr h.2

/-- C3 counterexample: the letters sentinel "ZZZ" is not strictly greater
than the real classification letters "ZZZ" (input "ZZZ123"), and a key
whose first cutter is missing sorts BEFORE (not after) the same key with
a present first cutter. -/
theorem claim_C3_counterexample :
    keyLetters (lc_sort_key "ZZZ123".data) = "ZZZ".data ∧
    ¬keyLetters (lc_sort_key "ZZZ123".data) < "ZZZ".data ∧
    lc_sort_key "QA".data < lc_sort_key "QA.A1".data ∧
    ¬lc_sort_key "QA.A1".data < lc_sort_key "QA".data :=
  ⟨by decide, by decide, by decide, by decide⟩

/-- C3 (amended): the sentinel "ZZZ" sorts at-or-after every real 1-3
uppercase-letter combination, strictly after every combination other than
"ZZZ" itself; a missing classification number and a missing year (`⊤`,
Python `inf`) sort after every finite value; and a missing cutter pair
`("", ⊤)` compares strictly BEFORE every present cutter pair (the empty
letter string precedes every 1-letter string). -/
theorem claim_C3 :
    (∀ letters : List Char, 1 ≤ letters.length → letters.length ≤ 3 →
      (∀ c ∈ letters, c.isUpper = true) →
      letters ≤ "ZZZ".data ∧ (letters ≠ "ZZZ".data → letters < "ZZZ".data)) ∧
    (∀ q : ℚ, ((q : WithTop ℚ)) < ⊤) ∧
    (∀ n : ℕ, ((n : WithTop ℕ)) < ⊤) ∧
    (∀ (c : Char) (n : ℕ), c.isUpper = true → missingCutter < cutterOf (c, n)) := by
  refine ⟨?_, fun q => WithTop.coe_lt_top q, fun n => WithTop.coe_lt_top n, ?_⟩
  · intro letters h1 h3 hup
    have hstrict : letters ≠ "ZZZ".data → letters < "ZZZ".data := by
      intro hne
      show List.Lex (· < ·) letters "ZZZ".data
      rcases letters with _ | ⟨a, _ | ⟨b, _ | ⟨c, tail⟩⟩⟩
      · simp at h1
      · rcases lt_or_eq_of_le (upper_le_Z (hup a (by simp))) with ha | ha
        · exact List.Lex.rel ha
        · subst ha
          exact List.Lex.cons (List.Lex.nil)
      · rcases lt_or_eq_of_le (upper_le_Z (hup a (by simp))) with ha | ha
        · exact List.Lex.rel ha
        · subst ha
          rcases lt_or_eq_of_le (upper_le_Z (hup b (by simp))) with hb | hb
          · exact List.Lex.cons (List.Lex.rel hb)
          · subst hb
            exact List.Lex.cons (List.Lex.cons List.Lex.nil)
      · have htail : tail = [] := by
          simp only [List.length_cons] at h3
          have h0 : tail.length = 0 := by omega
          exact List.length_eq_zero.mp h0
        subst htail
        rcases lt_or_eq_of_le (upper_le_Z (hup a (by simp))) with ha | ha
        · exact List.Lex.rel ha
        · subst ha
          rcases lt_or_eq_of_le (upper_le_Z (hup b (by simp))) with hb | hb
          · exact List.Lex.cons (List.Lex.rel hb)
          · subst hb
            rcases lt_or_eq_of_le (upper_le_Z (hup c (by simp))) with hc | hc
            · exact List.Lex.cons (List.Lex.cons (List.Lex.rel hc))
            · subst hc
              exact absurd rfl hne
    refine ⟨?_, hstrict⟩
    rcases eq_or_ne letters "ZZZ".data with heq | hne
    · exact le_of_eq heq
    · exact le_of_lt (hstrict hne)
  · intro c n _
    show Prod.Lex (· < ·) (· < ·) ([], ⊤) ([c], (n : WithTop ℕ))
    exact Prod.Lex.left _ _ (List.nil_lt_cons c [])

/-- C3 witness: the amended statement at concrete instances. -/
theorem claim_C3_witness :
    ("QA".data ≤ "ZZZ".data ∧ ("QA".data ≠ "ZZZ".data → "QA".data < "ZZZ".data)) ∧
    ((5 : ℚ) : WithTop ℚ) < ⊤ ∧
    ((1999 : ℕ) : WithTop ℕ) < ⊤ ∧
    missingCutter < cutterOf ('A', 7) :=
  ⟨claim_C3.1 "QA".data (by decide) (by decide) (by decide),
    claim_C3.2.1 5, claim_C3.2.2.1 1999, claim_C3.2.2.2 'A' 7 (by decide)⟩

/-! C7: the year component is the last non-adjacent 4-digit numeral. -/

/-- Spec-side formulation of the year rule, following the spec's words:
the values of all occurrences of a 4-digit numeral in [1000, 2999] not
immediately adjacent to other digits (`prev` tracks whether the previous
character is a digit), collected left to right WITHOUT consuming anything;
the year is then the last entry of this list. -/
def yearOccs : Bool → List Char → List ℕ
  | _, [] => []
  | prev, d1 :: d2 :: d3 :: d4 :: rest =>
    (if !prev && yearHere d1 d2 d3 d4 rest then [natVal [d1, d2, d3, d4]] else []) ++
      yearOccs d1.isDigit (d2 :: d3 :: d4 :: rest)
  | _, c :: rest => yearOccs c.isDigit rest

theorem yearOccs_skip : ∀ (c : Char) (l : List Char),
    yearOccs true (c :: l) = yearOccs c.isDigit l
  | _, [] => rfl
  | _, [_] => rfl
  | _, [_, _] => rfl
  | _, _ :: _ :: _ :: _ => rfl

theorem digit_of_12 {c : Char} (h : ((c == '1') || (c == '2')) = true) :
    c.isDigit = true := by
  rcases Bool.or_eq_true _ _ |>.mp h with h1 | h1
  · rw [beq_iff_eq.mp h1]
    decide
  · rw [beq_iff_eq.mp h1]
    decide

theorem yearHere_parts {d1 d2 d3 d4 : Char} {rest : List Char}
    (h : yearHere d1 d2 d3 d4 rest = true) :
    ((d1 == '1') || (d1 == '2')) = true ∧ d2.isDigit = true ∧ d3.isDigit = true ∧
      d4.isDigit = true := by
  simp only [yearHere, Bool.and_eq_true] at h
  exact ⟨h.1.1.1.1, h.1.1.1.2, h.1.1.2, h.1.2⟩

theorem digit_sub_le {c : Char} (h : c.isDigit = true) : c.toNat - 48 ≤ 9 := by
  simp only [Char.isDigit, Bool.and_eq_true, decide_eq_true_eq] at h
  have h2 : c.toNat ≤ 57 := h.2
  omega

theorem natVal_four_bounds {d1 d2 d3 d4 : Char}
    (h12 : ((d1 == '1') || (d1 == '2')) = true)
    (h2 : d2.isDigit = true) (h3 : d3.isDigit = true) (h4 : d4.isDigit = true) :
    1000 ≤ natVal [d1, d2, d3, d4] ∧ natVal [d1, d2, d3, d4] ≤ 2999 := by
  have e : natVal [d1, d2, d3, d4] =
      (((0 * 10 + (d1.toNat - 48)) * 10 + (d2.toNat - 48)) * 10 + (d3.toNat - 48)) * 10 +
        (d4.toNat - 48) := rfl
  have b1 : d1.toNat - 48 = 1 ∨ d1.toNat - 48 = 2 := by
    rcases Bool.or_eq_true _ _ |>.mp h12 with h | h
    · left
      rw [beq_iff_eq.mp h]
      rfl
    · right
      rw [beq_iff_eq.mp h]
      rfl
  have b2 := digit_sub_le h2
  have b3 := digit_sub_le h3
  have b4 := digit_sub_le h4
  rw [e]
  rcases b1 with b1 | b1 <;> omega

theorem yearOccs_bounds : ∀ (l : List Char) (prev : Bool) (y : ℕ),
    y ∈ yearOccs prev l → 1000 ≤ y ∧ y ≤ 2999
  | [], _, y => fun hy => absurd hy (List.not_mem_nil y)
  | [c], prev, y => fun hy => yearOccs_bounds [] c.isDigit y hy
  | [c, x], prev, y => fun hy => yearOccs_bounds [x] c.isDigit y hy
  | [c, x, z], prev, y => fun hy => yearOccs_bounds [x, z] c.isDigit y hy
  | d1 :: d2 :: d3 :: d4 :: rest, prev, y => by
    intro hy
    have hy' : y ∈ (if !prev && yearHere d1 d2 d3 d4 rest then
        [natVal [d1, d2, d3, d4]] else []) ++ yearOccs d1.isDigit (d2 :: d3 :: d4 :: rest) := hy
    rcases List.mem_append.mp hy' with hl | hr
    · by_cases hc : (!prev && yearHere d1 d2 d3 d4 rest) = true
      · rw [if_pos hc, List.mem_singleton] at hl
        subst hl
        obtain ⟨h12, hd2, hd3, hd4⟩ := yearHere_parts (Bool.and_eq_true _ _ |>.mp hc).2
        exact natVal_four_bounds h12 hd2 hd3 hd4
      · rw [if_neg hc] at hl
        exact absurd hl (List.not_mem_nil y)
    · exact yearOccs_bounds (d2 :: d3 :: d4 :: rest) d1.isDigit y hr

theorem yearScan_eq : ∀ (l : List Char) (prev : Bool) (acc : Option ℕ),
    yearScan prev l acc =
      match (yearOccs prev l).getLast? with
      | some y => some y
      | none => acc
  | [], _, _ => rfl
  | [c], _, _ => rfl
  | [c, x], _, _ => rfl
  | [c, x, z], _, _ => rfl
  | d1 :: d2 :: d3 :: d4 :: rest, prev, acc => by
    show (if !prev && yearHere d1 d2 d3 d4 rest then
        yearScan true rest (some (natVal [d1, d2, d3, d4]))
      else yearScan d1.isDigit (d2 :: d3 :: d4 :: rest) acc) =
      match (yearOccs prev (d1 :: d2 :: d3 :: d4 :: rest)).getLast? with
      | some y => some y
      | none => acc
    have hocc : yearOccs prev (d1 :: d2 :: d3 :: d4 :: rest) =
        (if !prev && yearHere d1 d2 d3 d4 rest then [natVal [d1, d2, d3, d4]] else []) ++
          yearOccs d1.isDigit (d2 :: d3 :: d4 :: rest) := rfl
    by_cases hc : (!prev && yearHere d1 d2 d3 d4 rest) = true
    · obtain ⟨h12, hd2, hd3, hd4⟩ := yearHere_parts (Bool.and_eq_true _ _ |>.mp hc).2
      have hd1 : d1.isDigit = true := digit_of_12 h12
      have hX : yearOccs d1.isDigit (d2 :: d3 :: d4 :: rest) = yearOccs true rest := by
        rw [hd1, yearOccs_skip, hd2, yearOccs_skip, hd3, yearOccs_skip, hd4]
      rw [if_pos hc, hocc, if_pos hc, hX,
        yearScan_eq rest true (some (natVal [d1, d2, d3, d4]))]
      rcases hY : yearOccs true rest with _ | ⟨y0, ys⟩
      · rfl
      · have hne : (y0 :: ys).getLast?.isSome := by
          rw [List.getLast?_isSome]
          simp
        obtain ⟨w, hw⟩ := Option.isSome_iff_exists.mp hne
        rw [List.singleton_append, List.getLast?_cons_cons, hw]
    · rw [if_neg hc, hocc, if_neg hc, List.nil_append]
      exact yearScan_eq (d2 :: d3 :: d4 :: rest) d1.isDigit acc

theorem keyYear_mkKey (letters : List Char) (num : WithTop ℚ) (c1 c2 c3 : CutterKey)
    (year : WithTop ℕ) : keyYear (mkKey letters num c1 c2 c3 year) = year := rfl

/-- C7: the year component of the sort key is the value of the LAST
occurrence, in the substring remaining after the classification segment,
of a 4-digit numeral in [1000, 2999] not immediately adjacent to other
digits, and `⊤` (Python inf) when no such occurrence exists; every
occurrence's value indeed lies in [1000, 2999]. -/
theorem claim_C7 : ∀ raw : List Char,
    (keyYear (lc_sort_key raw) =
      match (yearOccs false (classRestOf raw)).getLast? with
      | some y => ((y : ℕ) : WithTop ℕ)
      | none => ⊤) ∧
    (∀ y ∈ yearOccs false (classRestOf raw), 1000 ≤ y ∧ y ≤ 2999) := by
  intro raw
  refine ⟨?_, fun y hy => yearOccs_bounds _ _ y hy⟩
  by_cases hraw : raw = []
  · subst hraw
    rfl
  · rcases hp : parse_class_and_number (normalizeCN raw) with ⟨letters, mainNum, rest⟩
    have hrest : classRestOf raw = rest := by
      unfold classRestOf
      rw [if_neg hraw, hp]
    have hyear : keyYear (lc_sort_key raw) =
        match yearScan false rest none with
        | some y => ((y : ℕ) : WithTop ℕ)
        | none => ⊤ := by
      unfold lc_sort_key
      rw [if_neg hraw, hp]
      rfl
    rw [hyear, hrest, yearScan_eq rest false none]
    rcases hL : (yearOccs false rest).getLast? with _ | y
    · rfl
    · rfl

/-- C7 witness: the year theorem at a concrete call number, whose only
occurrence is 2019. -/
theorem claim_C7_witness :
    (keyYear (lc_sort_key "QA76 .C153 2019".data) =
      match (yearOccs false (classRestOf "QA76 .C153 2019".data)).getLast? with
      | some y => ((y : ℕ) : WithTop ℕ)
      | none => ⊤) ∧ (1000 ≤ 2019 ∧ 2019 ≤ 2999) :=
  ⟨(claim_C7 "QA76 .C153 2019".data).1,
    (claim_C7 "QA76 .C153 2019".data).2 2019 (by decide)⟩

/-! C8: exactly three cutter slots, first three matches in order. -/

theorem keyCutters_mkKey (letters : List Char) (num : WithTop ℚ) (c1 c2 c3 : CutterKey)
    (year : WithTop ℕ) : keyCutters (mkKey letters num c1 c2 c3 year) = [c1, c2, c3] := rfl

theorem three_getD {α : Type} (l : List α) (d : α) (h : l.length = 3) :
    [l.getD 0 d, l.getD 1 d, l.getD 2 d] = l := by
  rcases l with _ | ⟨a, _ | ⟨b, _ | ⟨c, _ | ⟨e, tl⟩⟩⟩⟩ <;> simp at h
  rfl

/-- C8: every sort key has exactly 3 cutter slots; they are the first 3
cutter matches of the post-classification substring, converted to
(1-letter string, number) pairs in their order of appearance (slot `i`
holds match `i`), matches beyond the third are dropped, and unfilled
slots hold the missing pair `("", ⊤)`. -/
theorem claim_C8 : ∀ raw : List Char,
    (keyCutters (lc_sort_key raw)).length = 3 ∧
    keyCutters (lc_sort_key raw) =
      ((cutterScan (classRestOf raw)).map cutterOf ++
        [missingCutter, missingCutter, missingCutter]).take 3 ∧
    (∀ i : ℕ, i < 3 → i < (cutterScan (classRestOf raw)).length →
      (keyCutters (lc_sort_key raw))[i]? =
        ((cutterScan (classRestOf raw))[i]?).map cutterOf) ∧
    (∀ i : ℕ, (cutterScan (classRestOf raw)).length ≤ i → i < 3 →
      (keyCutters (lc_sort_key raw))[i]? = some missingCutter) := by
  intro raw
  have hmain : keyCutters (lc_sort_key raw) =
      ((cutterScan (classRestOf raw)).map cutterOf ++
        [missingCutter, missingCutter, missingCutter]).take 3 := by
    by_cases hraw : raw = []
    · subst hraw
      rfl
    · rcases hp : parse_class_and_number (normalizeCN raw) with ⟨letters, mainNum, rest⟩
      have hrest : classRestOf raw = rest := by
        unfold classRestOf
        rw [if_neg hraw, hp]
      rw [hrest]
      have hlen : (((cutterScan rest).map cutterOf ++
          [missingCutter, missingCutter, missingCutter]).take 3).length = 3 := by
        rw [List.length_take, List.length_append, List.length_map]
        simp only [List.length_cons, List.length_singleton]
        omega
      have hgoal : keyCutters (lc_sort_key raw) =
          [(((cutterScan rest).map cutterOf ++
              [missingCutter, missingCutter, missingCutter]).take 3).getD 0 missingCutter,
            (((cutterScan rest).map cutterOf ++
              [missingCutter, missingCutter, missingCutter]).take 3).getD 1 missingCutter,
            (((cutterScan rest).map cutterOf ++
              [missingCutter, missingCutter, missingCutter]).take 3).getD 2 missingCutter] := by
        unfold lc_sort_key
        rw [if_neg hraw, hp]
        rfl
      rw [hgoal, three_getD _ _ hlen]
  refine ⟨?_, hmain, ?_, ?_⟩
  · rw [hmain, List.length_take, List.length_append, List.length_map]
    simp only [List.length_cons, List.length_singleton]
    omega
  · intro i h3 hi
    rw [hmain, List.getElem?_take_of_lt h3, List.getElem?_append,
      if_pos (by rw [List.length_map]; exact hi), List.getElem?_map]
  · intro i hi h3
    rw [hmain, List.getElem?_take_of_lt h3,
      List.getElem?_append_right (by rw [List.length_map]; exact hi), List.length_map]
    have hlt : i - (cutterScan (classRestOf raw)).length < 3 := by omega
    set j := i - (cutterScan (classRestOf raw)).length with hjdef
    interval_cases j <;> rfl

/-- C8 witness: the cutter-slot theorem at a concrete call number with
two cutters. -/
theorem claim_C8_witness :
    (keyCutters (lc_sort_key "QA76 .C153 S65 2019".data))[0]? =
        ((cutterScan (classRestOf "QA76 .C153 S65 2019".data))[0]?).map cutterOf ∧
      (keyCutters (lc_sort_key "QA76 .C153 S65 2019".data))[2]? = some missingCutter :=
  ⟨(claim_C8 "QA76 .C153 S65 2019".data).2.2.1 0 (by decide) (by decide),
    (claim_C8 "QA76 .C153 S65 2019".data).2.2.2 2 (by decide) (by decide)⟩

/-! C10: totality and the all-missing key for unparseable input. -/

theorem mem_stripList {c : Char} {l : List Char} (h : c ∈ stripList l) : c ∈ l := by
  unfold stripList at h
  rw [List.mem_reverse] at h
  have h2 : c ∈ (l.dropWhile isWS).reverse := (List.dropWhile_sublist _).mem h
  rw [List.mem_reverse] at h2
  exact (List.dropWhile_sublist _).mem h2

theorem toUpper_nonalpha {c : Char} (h : c.isAlpha = false) : c.toUpper = c := by
  unfold Char.toUpper
  rw [if_neg ?hc]
  case hc =>
    intro hcond
    have hlow : c.isLower = true := by
      simp only [Char.isLower, Bool.and_eq_true, decide_eq_true_eq]
      exact ⟨hcond.1, hcond.2⟩
    simp [Char.isAlpha, hlow] at h

theorem nonupper_of_nonalpha {c : Char} (h : c.isAlpha = false) : c.isUpper = false := by
  cases hu : c.isUpper
  · rfl
  · simp [Char.isAlpha, hu] at h

/-- Recursion principle stepping over one or two characters, matching the
shape of `replaceDD`/`replaceSD`. -/
theorem twoStep_rec {motive : List Char → Prop}
    (h0 : motive [])
    (h1 : ∀ c, motive [c])
    (h2 : ∀ a b rest, motive rest → motive (b :: rest) → motive (a :: b :: rest)) :
    ∀ l, motive l
  | [] => h0
  | [c] => h1 c
  | a :: b :: rest =>
    h2 a b rest (twoStep_rec h0 h1 h2 rest) (twoStep_rec h0 h1 h2 (b :: rest))

theorem replaceDD_mem {c : Char} : ∀ {l : List Char}, c ∈ replaceDD l → c = '.' ∨ c ∈ l := by
  intro l
  induction l using twoStep_rec with
  | h0 => intro h; exact absurd h (List.not_mem_nil c)
  | h1 x => intro h; exact Or.inr h
  | h2 a b rest ih1 ih2 =>
    intro h
    by_cases hab : a = '.' ∧ b = '.'
    · rw [show replaceDD (a :: b :: rest) = '.' :: replaceDD rest by
        show (if a = '.' ∧ b = '.' then '.' :: replaceDD rest else a :: replaceDD (b :: rest)) = _
        rw [if_pos hab]] at h
      rcases List.mem_cons.mp h with h1 | h1
      · exact Or.inl h1
      · rcases ih1 h1 with h2 | h2
        · exact Or.inl h2
        · exact Or.inr (by simp [h2])
    · rw [show replaceDD (a :: b :: rest) = a :: replaceDD (b :: rest) by
        show (if a = '.' ∧ b = '.' then '.' :: replaceDD rest else a :: replaceDD (b :: rest)) = _
        rw [if_neg hab]] at h
      rcases List.mem_cons.mp h with h1 | h1
      · exact Or.inr (by simp [h1])
      · rcases ih2 h1 with h2 | h2
        · exact Or.inl h2
        · exact Or.inr (by simp [List.mem_cons.mp h2])

theorem replaceSD_mem {c : Char} : ∀ {l : List Char}, c ∈ replaceSD l → c = '.' ∨ c ∈ l := by
  intro l
  induction l using twoStep_rec with
  | h0 => intro h; exact absurd h (List.not_mem_nil c)
  | h1 x => intro h; exact Or.inr h
  | h2 a b rest ih1 ih2 =>
    intro h
    by_cases hab : a = ' ' ∧ b = '.'
    · rw [show replaceSD (a :: b :: rest) = '.' :: replaceSD rest by
        show (if a = ' ' ∧ b = '.' then '.' :: replaceSD rest else a :: replaceSD (b :: rest)) = _
        rw [if_pos hab]] at h
      rcases List.mem_cons.mp h with h1 | h1
      · exact Or.inl h1
      · rcases ih1 h1 with h2 | h2
        · exact Or.inl h2
        · exact Or.inr (by simp [h2])
    · rw [show replaceSD (a :: b :: rest) = a :: replaceSD (b :: rest) by
        show (if a = ' ' ∧ b = '.' then '.' :: replaceSD rest else a :: replaceSD (b :: rest)) = _
        rw [if_neg hab]] at h
      rcases List.mem_cons.mp h with h1 | h1
      · exact Or.inr (by simp [h1])
      · rcases ih2 h1 with h2 | h2
        · exact Or.inl h2
        · exact Or.inr (by simp [List.mem_cons.mp h2])

theorem collapse_mem_or {c : Char} : ∀ {l : List Char}, c ∈ collapse l → c = ' ' ∨ c ∈ l := by
  intro l
  induction l using collapse_rec with
  | h0 => intro h; exact absurd h (List.not_mem_nil c)
  | h1 x =>
    intro h
    rcases bool_cases (isWS x) with hx | hx
    · rw [show collapse [x] = [x] by
        simp only [collapse]; rw [if_neg (bool_ne_true hx)]] at h
      exact Or.inr h
    · rw [show collapse [x] = [' '] by simp only [collapse]; rw [if_pos hx]] at h
      exact Or.inl (List.mem_singleton.mp h)
  | h2 a b rest ih =>
    intro h
    by_cases hab : (isWS a && isWS b) = true
    · rw [show collapse (a :: b :: rest) = collapse (b :: rest) by
        simp only [collapse]; rw [if_pos hab]] at h
      rcases ih h with h1 | h1
      · exact Or.inl h1
      · exact Or.inr (by simp [List.mem_cons.mp h1])
    · rw [show collapse (a :: b :: rest) = (if isWS a then ' ' else a) :: collapse (b :: rest) by
        simp only [collapse]; rw [if_neg hab]] at h
      rcases List.mem_cons.mp h with h1 | h1
      · rcases bool_cases (isWS a) with ha | ha
        · rw [if_neg (bool_ne_true ha)] at h1
          exact Or.inr (by simp [h1])
        · rw [if_pos ha] at h1
          exact Or.inl h1
      · rcases ih h1 with h2 | h2
        · exact Or.inl h2
        · exact Or.inr (by simp [List.mem_cons.mp h2])

theorem normalizeCN_pres {raw : List Char}
    (h : ∀ c ∈ raw, c.isAlpha = false ∧ c.isDigit = false) :
    ∀ c ∈ normalizeCN raw, c.isAlpha = false ∧ c.isDigit = false := by
  intro c hc
  unfold normalizeCN at hc
  have hc1 := mem_stripList hc
  rcases replaceSD_mem hc1 with rfl | hc2
  · exact ⟨by decide, by decide⟩
  rcases replaceDD_mem hc2 with rfl | hc3
  · exact ⟨by decide, by decide⟩
  rcases collapse_mem_or hc3 with rfl | hc4
  · exact ⟨by decide, by decide⟩
  obtain ⟨d, hd, rfl⟩ := List.mem_map.mp hc4
  have hPd := h d (mem_stripList hd)
  rw [toUpper_nonalpha hPd.1]
  exact hPd

theorem parse_class_nonupper {s : List Char} (h : ∀ c ∈ s, c.isUpper = false) :
    parse_class_and_number s = ([], ⊤, s) := by
  have hl : ((s.dropWhile isWS).takeWhile Char.isUpper).take 3 = [] := by
    rcases ht : s.dropWhile isWS with _ | ⟨c, r⟩
    · rfl
    · have hc : c ∈ s := (List.dropWhile_sublist _).mem (by rw [ht]; simp)
      rw [List.takeWhile_cons, if_neg (by rw [h c hc]; simp)]
      rfl
  simp only [parse_class_and_number, hl, if_pos]

theorem mem_dropDot {c : Char} {l : List Char} (h : c ∈ dropDot l) : c ∈ l := by
  cases l with
  | nil => exact absurd h (List.not_mem_nil c)
  | cons a r =>
    by_cases ha : a = '.'
    · rw [show dropDot (a :: r) = r by
        show (if a = '.' then r else a :: r) = r
        rw [if_pos ha]] at h
      exact List.mem_cons_of_mem a h
    · rw [show dropDot (a :: r) = a :: r by
        show (if a = '.' then r else a :: r) = a :: r
        rw [if_neg ha]] at h
      exact h

theorem tryMatchCutter_nonupper {l : List Char} (h : ∀ c ∈ l, c.isUpper = false) :
    tryMatchCutter l = none := by
  unfold tryMatchCutter
  rcases hm : (dropDot l).dropWhile isWS with _ | ⟨x, r⟩
  · rfl
  · have hx : x ∈ l := mem_dropDot ((List.dropWhile_sublist _).mem (by rw [hm]; simp))
    simp [h x hx]

theorem cutterScan_nonupper {l : List Char} (h : ∀ c ∈ l, c.isUpper = false) :
    cutterScan l = [] := by
  induction l with
  | nil => rfl
  | cons c rest ih =>
    rw [cutterScan_cons, tryMatchCutter_nonupper h]
    exact ih fun x hx => h x (List.mem_cons_of_mem c hx)

theorem yearScan_nodigit : ∀ (l : List Char), (∀ c ∈ l, c.isDigit = false) →
    ∀ (prev : Bool) (acc : Option ℕ), yearScan prev l acc = acc
  | [], _, _, _ => rfl
  | [_], _, _, _ => rfl
  | [_, _], _, _, _ => rfl
  | [_, _, _], _, _, _ => rfl
  | d1 :: d2 :: d3 :: d4 :: rest, h, prev, acc => by
    have hd2 : d2.isDigit = false := h d2 (by simp)
    have hyh : yearHere d1 d2 d3 d4 rest = false := by
      simp [yearHere, hd2]
    show (if !prev && yearHere d1 d2 d3 d4 rest then
        yearScan true rest (some (natVal [d1, d2, d3, d4]))
      else yearScan d1.isDigit (d2 :: d3 :: d4 :: rest) acc) = acc
    rw [hyh, Bool.and_false, if_neg (by simp)]
    exact yearScan_nodigit (d2 :: d3 :: d4 :: rest)
      (fun x hx => h x (List.mem_cons_of_mem d1 hx)) d1.isDigit acc

/-- C10: deriving the sort key is total (it always produces a well-formed
9-component tuple), the guarded empty input yields the all-missing key,
and so does every unparseable input (no letters and no digits anywhere):
letters sentinel "ZZZ", class number `⊤`, three missing cutter pairs and
year `⊤`. -/
theorem claim_C10 :
    (∀ raw : List Char, ∃ letters num c1 c2 c3 year,
      lc_sort_key raw = mkKey letters num c1 c2 c3 year) ∧
    lc_sort_key [] = allMissingKey ∧
    (∀ raw : List Char, (∀ c ∈ raw, c.isAlpha = false ∧ c.isDigit = false) →
      lc_sort_key raw = allMissingKey) := by
  refine ⟨?_, rfl, ?_⟩
  · intro raw
    exact ⟨keyLetters (lc_sort_key raw), keyClassNum (lc_sort_key raw),
      keyCutter1 (lc_sort_key raw), keyCutter2 (lc_sort_key raw),
      keyCutter3 (lc_sort_key raw), keyYear (lc_sort_key raw), rfl⟩
  · intro raw hP
    by_cases hraw : raw = []
    · subst hraw
      rfl
    · have hPn := normalizeCN_pres hP
      have hparse : parse_class_and_number (normalizeCN raw) = ([], ⊤, normalizeCN raw) :=
        parse_class_nonupper fun c hc => nonupper_of_nonalpha (hPn c hc).1
      have hcut : cutterScan (normalizeCN raw) = [] :=
        cutterScan_nonupper fun c hc => nonupper_of_nonalpha (hPn c hc).1
      have hyr : yearScan false (normalizeCN raw) none = none :=
        yearScan_nodigit (normalizeCN raw) (fun c hc => (hPn c hc).2) false none
      have hpc : parse_cutters_and_extras (normalizeCN raw) = ([], ⊤) := by
        unfold parse_cutters_and_extras
        rw [hcut, hyr]
      unfold lc_sort_key
      rw [if_neg hraw]
      simp only [hparse, hpc]
      rfl

/-- C10 witness: a fully unparseable concrete input gets the all-missing
key. -/
theorem claim_C10_witness : lc_sort_key "!!! ???".data = allMissingKey :=
  claim_C10.2.2 "!!! ???".data (by decide)

/-! C2: the ranking pass (main script, lines 147-184). -/

/-- Word characters for Python's `\b` (ASCII fragment: letters, digits
and underscore). -/
def isWordChar (c : Char) : Bool := c.isAlpha || c.isDigit || (c == '_')

/-- Case-insensitive test for the 10-character phrase "and others" at the
head of the list, with the trailing `\b` (next character absent or not a
word character). -/
def andOthersHere (l : List Char) : Bool :=
  ((l.take 10).map Char.toLower == "and others".data) &&
    (match l.drop 10 with
     | [] => true
     | e :: _ => !isWordChar e)

/-- Python `re.sub(r"\band others\b", "", lc_raw, flags=re.IGNORECASE)`: scan
left to right tracking whether the previous character is a word character
(the leading `\b`; the phrase starts with a word character); on a match
delete the 10 matched characters and resume right after them. -/
def stripAndOthersScan : Bool → List Char → List Char
  | _, [] => []
  | prev, a1 :: a2 :: a3 :: a4 :: a5 :: a6 :: a7 :: a8 :: a9 :: a10 :: rest =>
    if !prev && andOthersHere (a1 :: a2 :: a3 :: a4 :: a5 :: a6 :: a7 :: a8 :: a9 :: a10 :: rest) then
      stripAndOthersScan true rest
    else
      a1 :: stripAndOthersScan (isWordChar a1)
        (a2 :: a3 :: a4 :: a5 :: a6 :: a7 :: a8 :: a9 :: a10 :: rest)
  | _, c :: rest => c :: stripAndOthersScan (isWordChar c) rest

/-- An input CSV record's fields of interest (`row.get` reads an absent
or `None` value as the empty string downstream). -/
structure InRow where
  title : List Char
  localCall : Option (List Char)
  lcCall : Option (List Char)
  physAvail : Option (List Char)
deriving DecidableEq

/-- A record after the first (cleaning) pass, carrying its 1-based
`_row_id` and its `_lc_sort_key`. -/
structure CleanRow where
  rowId : ℕ
  title : List Char
  physAvail : List Char
  cnFromPA : List Char
  localCall : List Char
  lcCall : List Char
  sortKey : SortKey
deriving DecidableEq

/-- One iteration of the first pass (source lines 149-170): split the
availability string, clean the three call-number fields (removing "and
others" from the LC one first), and compute the sort key of the best
call number of the cleaned row. -/
def cleanRow (i : ℕ) (r : InRow) : CleanRow :=
  let pa := extract_from_physical_availability (r.physAvail.getD [])
  let cn := cleanCN pa.2
  let loc := cleanCN (r.localCall.getD [])
  let lc := cleanCN (stripList (stripAndOthersScan false (r.lcCall.getD [])))
  { rowId := i, title := r.title, physAvail := pa.1, cnFromPA := cn,
    localCall := loc, lcCall := lc,
    sortKey := lc_sort_key (best_call_number_for_sort (some lc) (some loc) (some cn)) }

/-- The first pass over the whole batch, `_row_id` counting from 1. -/
def cleanRowsAux : ℕ → List InRow → List CleanRow
  | _, [] => []
  | i, r :: rs => cleanRow (i + 1) r :: cleanRowsAux (i + 1) rs

def cleanedRows (rs : List InRow) : List CleanRow := cleanRowsAux 0 rs

/-- The comparison used by `sorted(cleaned_rows, key=...)`. -/
def rowLe (a b : CleanRow) : Bool := decide (a.sortKey ≤ b.sortKey)

/-- Source `sorted_rows`: a stable sort of the batch by sort key (Python's
`sorted` is stable; `List.mergeSort` is the stable sort of the library). -/
def sortedRows (rs : List InRow) : List CleanRow := (cleanedRows rs).mergeSort rowLe

/-- Lookup `id_to_index[r._row_id]`: one plus the position, in the sorted copy,
of the row found by its `_row_id` (row ids are unique, so the dict lookup
is this first-position search). -/
def rankFor (rs : List InRow) (r : CleanRow) : ℕ :=
  (sortedRows rs).findIdx (fun x => x.rowId == r.rowId) + 1

/-- The final write loop (source lines 179-184): the cleaned rows in
their original order, each paired with its `LC_SortIndex`. -/
def outputRows (rs : List InRow) : List (CleanRow × ℕ) :=
  (cleanedRows rs).map (fun r => (r, rankFor rs r))

theorem rowLe_trans : ∀ a b c : CleanRow, rowLe a b = true → rowLe b c = true →
    rowLe a c = true := by
  intro a b c hab hbc
  simp only [rowLe, decide_eq_true_eq] at hab hbc ⊢
  exact le_trans hab hbc

theorem rowLe_total : ∀ a b : CleanRow, (rowLe a b || rowLe b a) = true := by
  intro a b
  simp only [rowLe, Bool.or_eq_true, decide_eq_true_eq]
  exact le_total _ _

theorem cleanRowsAux_rowIds : ∀ (i : ℕ) (rs : List InRow),
    (cleanRowsAux i rs).map (fun r => r.rowId) = List.range' (i + 1) rs.length
  | _, [] => rfl
  | i, r :: rs => by
    show (i + 1) :: (cleanRowsAux (i + 1) rs).map (fun r => r.rowId) = _
    rw [cleanRowsAux_rowIds (i + 1) rs, List.length_cons]
    rfl

theorem cleanedRows_rowIds (rs : List InRow) :
    (cleanedRows rs).map (fun r => r.rowId) = List.range' 1 rs.length :=
  cleanRowsAux_rowIds 0 rs

theorem cleanedRows_rowIds_nodup (rs : List InRow) :
    ((cleanedRows rs).map (fun r => r.rowId)).Nodup := by
  rw [cleanedRows_rowIds]
  exact List.nodup_range' 1 rs.length

theorem sortedRows_perm (rs : List InRow) :
    (sortedRows rs).Perm (cleanedRows rs) :=
  List.mergeSort_perm (cleanedRows rs) rowLe

theorem sortedRows_rowIds_nodup (rs : List InRow) :
    ((sortedRows rs).map (fun r => r.rowId)).Nodup :=
  (((sortedRows_perm rs).map (fun r => r.rowId)).symm).nodup (cleanedRows_rowIds_nodup rs)

theorem findIdx_rowId : ∀ {l : List CleanRow},
    (l.map (fun r => r.rowId)).Nodup → ∀ {k : ℕ} {r : CleanRow},
    l[k]? = some r → l.findIdx (fun x => x.rowId == r.rowId) = k := by
  intro l
  induction l with
  | nil =>
    intro _ k r hk
    simp at hk
  | cons a tl ih =>
    intro hnd k r hk
    rw [List.map_cons] at hnd
    have hnd1 := List.nodup_cons.mp hnd
    cases k with
    | zero =>
      have ha : a = r := by
        simpa using hk
      subst ha
      rw [List.findIdx_cons, show (a.rowId == a.rowId) = true by simp]
      rfl
    | succ k' =>
      have hk' : tl[k']? = some r := by
        simpa using hk
      have hrmem : r ∈ tl := List.getElem?_mem hk' 
      have hne : (a.rowId == r.rowId) = false := by
        rw [beq_eq_false_iff_ne]
        intro heq
        exact hnd1.1 (heq ▸ List.mem_map_of_mem (fun r => r.rowId) hrmem)
      rw [List.findIdx_cons, hne]
      have := ih hnd1.2 hk'
      simp [this]

theorem pair_sublist_of_getElem : ∀ {l : List CleanRow} {i j : ℕ} {a b : CleanRow},
    i < j → l[i]? = some a → l[j]? = some b → List.Sublist [a, b] l := by
  intro l
  induction l with
  | nil =>
    intro i j a b _ hi _
    simp at hi
  | cons x tl ih =>
    intro i j a b hij hi hj
    cases i with
    | zero =>
      have hx : x = a := by simpa using hi
      subst hx
      cases j with
      | zero => exact absurd hij (by omega)
      | succ j' =>
        have hj' : tl[j']? = some b := by simpa using hj
        have hbmem : b ∈ tl := List.getElem?_mem hj' 
        exact (List.singleton_sublist.mpr hbmem).cons₂ x
    | succ i' =>
      cases j with
      | zero => exact absurd hij (by omega)
      | succ j' =>
        have hi' : tl[i']? = some a := by simpa using hi
        have hj' : tl[j']? = some b := by simpa using hj
        exact (ih (by omega) hi' hj').cons x

theorem sublist_pair_positions : ∀ {l : List CleanRow} {a b : CleanRow},
    List.Sublist [a, b] l → ∃ p q : ℕ, p < q ∧ l[p]? = some a ∧ l[q]? = some b := by
  intro l
  induction l with
  | nil =>
    intro a b h
    exact absurd h (by simp)
  | cons x tl ih =>
    intro a b h
    cases h with
    | cons _ h' =>
      obtain ⟨p, q, hpq, hp, hq⟩ := ih h'
      exact ⟨p + 1, q + 1, by omega, by simpa using hp, by simpa using hq⟩
    | cons₂ _ h' =>
      have hbmem : b ∈ tl := List.singleton_sublist.mp h'
      obtain ⟨q, hq⟩ := List.getElem?_of_mem hbmem
      exact ⟨0, q + 1, by omega, by simp, by simpa using hq⟩

/-- C2: the ranking pass emits all records in their original ingestion
order (the output is the cleaned batch itself, each record just carrying
its rank); the sorted copy is a stable sort of the batch by sort key
(sorted, and a permutation of the batch); every record's rank is its
1-based position in that sorted copy; and of two records with equal sort
keys the one with the smaller ingestion index receives the smaller
rank. -/
theorem claim_C2 : ∀ rs : List InRow,
    ((outputRows rs).map Prod.fst = cleanedRows rs) ∧
    (sortedRows rs).Pairwise (fun a b => a.sortKey ≤ b.sortKey) ∧
    (sortedRows rs).Perm (cleanedRows rs) ∧
    (∀ (r : CleanRow) (i : ℕ), (cleanedRows rs)[i]? = some r →
      (sortedRows rs)[rankFor rs r - 1]? = some r) ∧
    (∀ (i j : ℕ) (r r' : CleanRow), i < j →
      (cleanedRows rs)[i]? = some r → (cleanedRows rs)[j]? = some r' →
      r.sortKey = r'.sortKey → rankFor rs r < rankFor rs r') := by
  intro rs
  refine ⟨?_, ?_, sortedRows_perm rs, ?_, ?_⟩
  · rw [outputRows, List.map_map]
    have hcomp : (Prod.fst ∘ fun r : CleanRow => (r, rankFor rs r)) = id := rfl
    rw [hcomp, List.map_id]
  · exact (List.sorted_mergeSort rowLe_trans rowLe_total (cleanedRows rs)).imp
      (fun h => by simpa [rowLe] using h)
  · intro r i hi
    have hmem : r ∈ cleanedRows rs := List.getElem?_mem hi
    have hmem' : r ∈ sortedRows rs := (sortedRows_perm rs).mem_iff.mpr hmem
    obtain ⟨k, hk⟩ := List.getElem?_of_mem hmem'
    have hidx := findIdx_rowId (sortedRows_rowIds_nodup rs) hk
    show (sortedRows rs)[(sortedRows rs).findIdx (fun x => x.rowId == r.rowId) + 1 - 1]? =
      some r
    rw [hidx]
    simpa using hk
  · intro i j r r' hij hi hj hkey
    have hsub : List.Sublist [r, r'] (cleanedRows rs) := pair_sublist_of_getElem hij hi hj
    have hle : rowLe r r' = true := by
      simp [rowLe, hkey]
    have hsub2 : List.Sublist [r, r'] (sortedRows rs) :=
      List.pair_sublist_mergeSort rowLe_trans rowLe_total hle hsub
    obtain ⟨p, q, hpq, hp, hq⟩ := sublist_pair_positions hsub2
    have hip := findIdx_rowId (sortedRows_rowIds_nodup rs) hp
    have hiq := findIdx_rowId (sortedRows_rowIds_nodup rs) hq
    show (sortedRows rs).findIdx (fun x => x.rowId == r.rowId) + 1 <
      (sortedRows rs).findIdx (fun x => x.rowId == r'.rowId) + 1
    rw [hip, hiq]
    omega

/-- C2 witness: a batch of two identical (empty) records; the earlier one
receives the smaller rank. -/
theorem claim_C2_witness :
    rankFor [⟨[], none, none, none⟩, ⟨[], none, none, none⟩]
        (cleanRow 1 ⟨[], none, none, none⟩) <
      rankFor [⟨[], none, none, none⟩, ⟨[], none, none, none⟩]
        (cleanRow 2 ⟨[], none, none, none⟩) :=
  (claim_C2 [⟨[], none, none, none⟩, ⟨[], none, none, none⟩]).2.2.2.2 0 1
    (cleanRow 1 ⟨[], none, none, none⟩) (cleanRow 2 ⟨[], none, none, none⟩)
    (by decide) (by decide) (by decide) (by decide)
